import Mathlib

set_option autoImplicit false
set_option maxRecDepth 4000

namespace MemorySSAModel

/-! Shallow embedding of llvm/Transforms/Utils/MemorySSA.h.  Pointers are
modelled as natural numbers and null pointers as none; DenseMap becomes an
association list; the hung-off operand storage of MemoryPhi becomes a pair of
parallel lists of possibly-null slots. -/

/-- The reserved invalid id, INVALID_MEMORYACCESS_ID = 0. -/
def INVALID_MEMORYACCESS_ID : Nat := 0

/-- A MemoryDef or MemoryPhi viewed as a defining access, carrying the value
returned by its getID virtual method. -/
structure DefAccess where
  id : Nat
deriving DecidableEq

/-- MemoryUse: the single defining-access operand, which may be null, and the
OptimizedID field, initialized to 0 by the constructor. -/
structure MemoryUse where
  definingAccess : Option DefAccess
  OptimizedID : Nat
deriving DecidableEq

/-- MemoryUse.setDefiningAccess: when Optimized is set, first record the id of
the new defining access into OptimizedID, then install the operand. -/
def MemoryUse.setDefiningAccess (U : MemoryUse) (DMA : DefAccess) (Optimized : Bool) : MemoryUse :=
  { definingAccess := some DMA
    OptimizedID := if Optimized then DMA.id else U.OptimizedID }

/-- MemoryUse.isOptimized: true when the defining-access operand is non-null
and OptimizedID equals the id of the current defining access. -/
def MemoryUse.isOptimized (U : MemoryUse) : Bool :=
  match U.definingAccess with
  | none => false
  | some d => U.OptimizedID == d.id

/-- MemoryUse.resetOptimized stores the invalid id. -/
def MemoryUse.resetOptimized (U : MemoryUse) : MemoryUse :=
  { U with OptimizedID := INVALID_MEMORYACCESS_ID }

/-- MemoryPhi: the hung-off incoming-value operands and the parallel incoming
block array, each slot possibly null, plus the const ID and ReservedSpace
fields. -/
structure MemoryPhi where
  values : List (Option Nat)
  blocks : List (Option Nat)
  ID : Nat
  ReservedSpace : Nat
deriving DecidableEq

/-- getNumOperands: the current hung-off operand count. -/
def MemoryPhi.getNumOperands (P : MemoryPhi) : Nat := P.values.length

/-- getNumIncomingValues returns getNumOperands. -/
def MemoryPhi.getNumIncomingValues (P : MemoryPhi) : Nat := P.getNumOperands

/-- getID returns the const ID field. -/
def MemoryPhi.getID (P : MemoryPhi) : Nat := P.ID

/-- setIncomingValue asserts the value is non-null before storing it; the
result none models the assertion firing. -/
def MemoryPhi.setIncomingValue (P : MemoryPhi) (I : Nat) (V : Option Nat) : Option MemoryPhi :=
  match V with
  | none => none
  | some v => some { P with values := P.values.set I (some v) }

/-- setIncomingBlock asserts the block is non-null before storing it. -/
def MemoryPhi.setIncomingBlock (P : MemoryPhi) (I : Nat) (BB : Option Nat) : Option MemoryPhi :=
  match BB with
  | none => none
  | some b => some { P with blocks := P.blocks.set I (some b) }

/-- growOperands: ReservedSpace becomes max(E + E/2, 2); the reallocation done
by growHungoffUses copies the existing operands and blocks unchanged. -/
def MemoryPhi.growOperands (P : MemoryPhi) : MemoryPhi :=
  { P with ReservedSpace := max (P.getNumOperands + P.getNumOperands / 2) 2 }

/-- addIncoming: grow when the operand count has reached ReservedSpace, extend
the operand count by one (the fresh slot of each array starts null), then set
the last value and block through the checked setters. -/
def MemoryPhi.addIncoming (P : MemoryPhi) (V BB : Nat) : Option MemoryPhi :=
  let P1 := if P.getNumOperands == P.ReservedSpace then P.growOperands else P
  let P2 : MemoryPhi := { P1 with values := P1.values ++ [none], blocks := P1.blocks ++ [none] }
  match P2.setIncomingValue (P2.getNumOperands - 1) (some V) with
  | none => none
  | some P3 => P3.setIncomingBlock (P3.getNumOperands - 1) (some BB)

/-- DenseMap find modelled on an association list: the first entry with the
given key, none when the key is absent. -/
def findMap {β : Type} : List (Nat × β) → Nat → Option β
  | [], _ => none
  | e :: rest, k => if e.fst = k then some e.snd else findMap rest k

/-- getWritableBlockAccesses: look BB up in PerBlockAccesses and return the
null pointer (none) when there is no entry, otherwise the stored access
list. -/
def getWritableBlockAccesses (PerBlockAccesses : List (Nat × List Nat)) (BB : Nat) :
    Option (List Nat) :=
  findMap PerBlockAccesses BB

/-- getBlockAccesses forwards to getWritableBlockAccesses. -/
def getBlockAccesses (PerBlockAccesses : List (Nat × List Nat)) (BB : Nat) : Option (List Nat) :=
  getWritableBlockAccesses PerBlockAccesses BB

/-- Claim C1: after setDefiningAccess with Optimized set, isOptimized returns
true; and whenever the id of the current defining access differs from the
recorded optimized marker, isOptimized returns false (the use is stale). -/
theorem c1_optimized_marker (U : MemoryUse) (D : DefAccess) :
    (U.setDefiningAccess D true).isOptimized = true ∧
    (∀ d : DefAccess, U.definingAccess = some d → d.id ≠ U.OptimizedID →
      U.isOptimized = false) := by
  constructor
  · simp [MemoryUse.setDefiningAccess, MemoryUse.isOptimized]
  · intro d hd hne
    simp only [MemoryUse.isOptimized, hd, beq_eq_false_iff_ne, ne_eq]
    exact fun h => hne h.symm

/-- Concrete instantiation of c1_optimized_marker. -/
theorem c1_optimized_marker_witness :
    ((MemoryUse.mk none 0).setDefiningAccess (DefAccess.mk 3) true).isOptimized = true ∧
    (MemoryUse.mk (some (DefAccess.mk 5)) 0).isOptimized = false := by
  refine ⟨(c1_optimized_marker (MemoryUse.mk none 0) (DefAccess.mk 3)).1, ?_⟩
  exact (c1_optimized_marker (MemoryUse.mk (some (DefAccess.mk 5)) 0) (DefAccess.mk 3)).2
    (DefAccess.mk 5) rfl (by decide)

/-- Claim C8: passing null to setIncomingValue or setIncomingBlock trips the
assertion (modelled as none); a successful call through either setter leaves a
non-null value in the written slot. -/
theorem c8_null_incoming_rejected (P : MemoryPhi) (I : Nat) :
    P.setIncomingValue I none = none ∧
    P.setIncomingBlock I none = none ∧
    (∀ v Q, P.setIncomingValue I (some v) = some Q → I < P.values.length →
      Q.values[I]? = some (some v)) ∧
    (∀ b Q, P.setIncomingBlock I (some b) = some Q → I < P.blocks.length →
      Q.blocks[I]? = some (some b)) := by
  refine ⟨rfl, rfl, ?_, ?_⟩
  · intro v Q hQ hlt
    simp only [MemoryPhi.setIncomingValue, Option.some.injEq] at hQ
    subst hQ
    simp [List.getElem?_set, hlt]
  · intro b Q hQ hlt
    simp only [MemoryPhi.setIncomingBlock, Option.some.injEq] at hQ
    subst hQ
    simp [List.getElem?_set, hlt]

/-- Concrete instantiation of c8_null_incoming_rejected. -/
theorem c8_null_incoming_rejected_witness :
    (MemoryPhi.mk [some 1] [some 2] 4 1).setIncomingValue 0 none = none ∧
    (MemoryPhi.mk [some 9] [some 2] 4 1).values[0]? = some (some 9) := by
  refine ⟨(c8_null_incoming_rejected (MemoryPhi.mk [some 1] [some 2] 4 1) 0).1, ?_⟩
  exact (c8_null_incoming_rejected (MemoryPhi.mk [some 1] [some 2] 4 1) 0).2.2.1 9
    (MemoryPhi.mk [some 9] [some 2] 4 1) (by decide) (by decide)

/-- Claim C10: a block with no entry in PerBlockAccesses yields the null
pointer, never an empty list; a recorded block yields its stored access
list. -/
theorem c10_block_accesses (m : List (Nat × List Nat)) (BB : Nat) :
    (getBlockAccesses m BB = none ↔ ∀ l, (BB, l) ∉ m) ∧
    (∀ l, (BB, l) ∈ m → (m.map Prod.fst).Nodup → getBlockAccesses m BB = some l) := by
  simp only [getBlockAccesses, getWritableBlockAccesses]
  induction m with
  | nil => simp [findMap]
  | cons e rest ih =>
    obtain ⟨k, v⟩ := e
    constructor
    · by_cases hk : k = BB
      · subst hk
        simp only [findMap, if_pos rfl]
        constructor
        · intro h
          exact absurd h (by simp)
        · intro h
          exact absurd (List.mem_cons_self (k, v) rest) (h v)
      · have hstep : findMap ((k, v) :: rest) BB = findMap rest BB := by
          simp [findMap, hk]
        rw [hstep, ih.1]
        constructor
        · intro h l hl
          rcases List.mem_cons.mp hl with hl | hl
          · exact absurd (congrArg Prod.fst hl).symm hk
          · exact h l hl
        · intro h l hl
          exact h l (List.mem_cons.mpr (Or.inr hl))
    · intro l hl hnd
      simp only [List.map_cons, List.nodup_cons] at hnd
      rcases List.mem_cons.mp hl with hl | hl
      · injection hl with h1 h2
        subst h1; subst h2
        simp [findMap]
      · have hk : k ≠ BB := by
          intro h
          subst h
          exact hnd.1 (List.mem_map.mpr ⟨(k, l), hl, rfl⟩)
        simp only [findMap, if_neg hk]
        exact ih.2 l hl hnd.2

/-- Concrete instantiation of c10_block_accesses. -/
theorem c10_block_accesses_witness :
    getBlockAccesses [(2, [7, 8])] 1 = none ∧
    getBlockAccesses [(2, [7, 8])] 2 = some [7, 8] := by
  constructor
  · exact (c10_block_accesses [(2, [7, 8])] 1).1.mpr (by simp)
  · exact (c10_block_accesses [(2, [7, 8])] 2).2 [7, 8] (by decide) (by decide)

/-- Setting the slot just past an existing list, after the storage was
extended by one dummy slot, is appending. -/
theorem set_append_length {α : Type} (l : List α) (a b : α) :
    (l ++ [a]).set l.length b = l ++ [b] := by
  induction l with
  | nil => rfl
  | cons x xs ih => simp [List.set, ih]

/-- Unfolding of addIncoming when the parallel arrays agree in length: the
incoming value list and block list each grow by the appended entry. -/
theorem addIncoming_eq (P : MemoryPhi) (V BB : Nat)
    (hlen : P.blocks.length = P.values.length) :
    P.addIncoming V BB = some
      { values := P.values ++ [some V]
        blocks := P.blocks ++ [some BB]
        ID := P.ID
        ReservedSpace :=
          (if P.getNumOperands == P.ReservedSpace then P.growOperands else P).ReservedSpace } := by
  have hblk : (P.blocks ++ [none]).set P.values.length (some BB) = P.blocks ++ [some BB] := by
    rw [← hlen]
    exact set_append_length P.blocks none (some BB)
  simp only [MemoryPhi.addIncoming, MemoryPhi.setIncomingValue, MemoryPhi.setIncomingBlock,
    MemoryPhi.getNumOperands, List.length_append, List.length_set, List.length_cons,
    List.length_nil, Nat.add_sub_cancel, Option.some.injEq]
  split
  · simp only [MemoryPhi.growOperands, MemoryPhi.getNumOperands, MemoryPhi.mk.injEq]
    exact ⟨set_append_length P.values none (some V), hblk, trivial, trivial⟩
  · simp only [MemoryPhi.mk.injEq]
    exact ⟨set_append_length P.values none (some V), hblk, trivial, trivial⟩

/-- Claim C9: addIncoming appends one incoming entry whose value and block are
the given pair, leaves every earlier entry unchanged, also when the append
reaches ReservedSpace and grows the storage, and keeps the phi id. -/
theorem c9_addIncoming_frame (P : MemoryPhi) (V BB : Nat)
    (hlen : P.blocks.length = P.values.length) :
    ∃ Q, P.addIncoming V BB = some Q ∧
      Q.getNumIncomingValues = P.getNumIncomingValues + 1 ∧
      Q.values[P.getNumOperands]? = some (some V) ∧
      Q.blocks[P.getNumOperands]? = some (some BB) ∧
      (∀ i, i < P.getNumOperands →
        Q.values[i]? = P.values[i]? ∧ Q.blocks[i]? = P.blocks[i]?) ∧
      Q.getID = P.getID := by
  refine ⟨_, addIncoming_eq P V BB hlen, ?_, ?_, ?_, ?_, rfl⟩
  · simp [MemoryPhi.getNumIncomingValues, MemoryPhi.getNumOperands]
  · exact List.getElem?_concat_length P.values (some V)
  · show (P.blocks ++ [some BB])[P.getNumOperands]? = some (some BB)
    rw [show P.getNumOperands = P.blocks.length from hlen.symm]
    exact List.getElem?_concat_length P.blocks (some BB)
  · intro i hi
    constructor
    · exact List.getElem?_append_left hi
    · exact List.getElem?_append_left (by rw [hlen]; exact hi)

/-- Concrete instantiation of c9_addIncoming_frame, at a phi whose operand
count has reached ReservedSpace so that the append grows the storage. -/
theorem c9_addIncoming_frame_witness :
    ∃ Q, (MemoryPhi.mk [some 1, some 2] [some 10, some 11] 7 2).addIncoming 3 12 = some Q ∧
      Q.getNumIncomingValues =
        (MemoryPhi.mk [some 1, some 2] [some 10, some 11] 7 2).getNumIncomingValues + 1 ∧
      Q.values[(MemoryPhi.mk [some 1, some 2] [some 10, some 11] 7 2).getNumOperands]? =
        some (some 3) ∧
      Q.blocks[(MemoryPhi.mk [some 1, some 2] [some 10, some 11] 7 2).getNumOperands]? =
        some (some 12) ∧
      (∀ i, i < (MemoryPhi.mk [some 1, some 2] [some 10, some 11] 7 2).getNumOperands →
        Q.values[i]? = (MemoryPhi.mk [some 1, some 2] [some 10, some 11] 7 2).values[i]? ∧
        Q.blocks[i]? = (MemoryPhi.mk [some 1, some 2] [some 10, some 11] 7 2).blocks[i]?) ∧
      Q.getID = (MemoryPhi.mk [some 1, some 2] [some 10, some 11] 7 2).getID :=
  c9_addIncoming_frame (MemoryPhi.mk [some 1, some 2] [some 10, some 11] 7 2) 3 12 (by decide)

/-- A memory access as the defs iterator sees it: a MemoryUse or MemoryDef
with its single defining-access operand (possibly null), or a MemoryPhi with
its incoming (value, block) pairs. -/
inductive MAccess where
  | useOrDef (definingAccess : Option Nat)
  | phi (incoming : List (Option Nat × Nat))
deriving DecidableEq

/-- getNumIncomingValues of an access (0 for non-phis). -/
def MAccess.numIncoming : MAccess → Nat
  | .useOrDef _ => 0
  | .phi inc => inc.length

/-- State of memoryaccess_def_iterator_base: the Access pointer (null at the
end iterator) and ArgNo. -/
structure DefIter where
  access : Option MAccess
  ArgNo : Nat
deriving DecidableEq

/-- defs_begin points the iterator at the access with ArgNo 0. -/
def defsBegin (A : MAccess) : DefIter := ⟨some A, 0⟩

/-- defs_end: the default-constructed iterator with a null Access. -/
def defsEnd : DefIter := ⟨none, 0⟩

/-- Comparison with defs_end: the equality operator requires equal Access
pointers and defs_end carries the null Access, so an iterator equals defs_end
exactly when its own Access is null. -/
def DefIter.atEnd (it : DefIter) : Bool := it.access.isNone

/-- The dereference operator: for a MemoryPhi, getIncomingValue(ArgNo), whose
getOperand asserts the index is in range; for MemoryUse and MemoryDef the
defining access. The outer none models an assertion firing; the inner option
is the possibly-null pointer yielded. -/
def DefIter.deref : DefIter → Option (Option Nat)
  | ⟨none, _⟩ => none
  | ⟨some (.useOrDef d), _⟩ => some d
  | ⟨some (.phi inc), k⟩ => (inc[k]?).map Prod.fst

/-- getPhiArgBlock: the incoming block paired with the current argument;
asserts the access is a MemoryPhi. -/
def DefIter.getPhiArgBlock : DefIter → Option Nat
  | ⟨some (.phi inc), k⟩ => (inc[k]?).map Prod.snd
  | _ => none

/-- The increment operator: on a MemoryPhi advance ArgNo, dropping to the end
iterator once ArgNo passes the last incoming value; otherwise go straight to
the end iterator. -/
def DefIter.step : DefIter → DefIter
  | ⟨none, k⟩ => ⟨none, k⟩
  | ⟨some (.phi inc), k⟩ =>
    if k + 1 ≥ inc.length then ⟨none, 0⟩ else ⟨some (.phi inc), k + 1⟩
  | ⟨some (.useOrDef _), _⟩ => ⟨none, 0⟩

/-- Iterate the increment operator i times. -/
def DefIter.stepN : Nat → DefIter → DefIter
  | 0, it => it
  | n + 1, it => DefIter.stepN n it.step

/-- Run the iteration loop: collect the dereferenced elements until the
iterator equals defs_end; none when a dereference trips an assertion or the
fuel runs out. -/
def runIter : Nat → DefIter → Option (List (Option Nat))
  | 0, _ => none
  | f + 1, it =>
    if it.atEnd then some []
    else match it.deref with
      | none => none
      | some v => (runIter f it.step).map (fun rest => v :: rest)

/-- One unfolding of the iteration loop. -/
theorem runIter_succ (f : Nat) (it : DefIter) :
    runIter (f + 1) it =
      if it.atEnd then some []
      else match it.deref with
        | none => none
        | some v => (runIter f it.step).map (fun rest => v :: rest) := rfl

/-- Running the iterator from argument position k of a phi collects the
remaining incoming values in order. -/
theorem runIter_phi (inc : List (Option Nat × Nat)) :
    ∀ fuel k, k < inc.length → inc.length - k < fuel →
      runIter fuel ⟨some (.phi inc), k⟩ = some ((inc.drop k).map Prod.fst) := by
  intro fuel
  induction fuel with
  | zero => intro k hk hf; omega
  | succ f ih =>
    intro k hk hf
    have hdrop : inc.drop k = inc[k] :: inc.drop (k + 1) := List.drop_eq_getElem_cons hk
    have hderef : DefIter.deref ⟨some (.phi inc), k⟩ = some (inc[k].fst) := by
      simp [DefIter.deref, List.getElem?_eq_getElem hk]
    rw [runIter_succ, hderef]
    rw [show DefIter.atEnd ⟨some (.phi inc), k⟩ = false from rfl]
    simp only [Bool.false_eq_true, if_false]
    by_cases hlast : k + 1 ≥ inc.length
    · have hstep : DefIter.step ⟨some (.phi inc), k⟩ = ⟨none, 0⟩ := by
        simp [DefIter.step, hlast]
      have hdropnil : inc.drop (k + 1) = [] := List.drop_eq_nil_of_le hlast
      have hfuel : ∃ g, f = g + 1 := ⟨f - 1, by omega⟩
      obtain ⟨g, rfl⟩ := hfuel
      rw [hstep, hdrop, hdropnil]
      rfl
    · have hstep : DefIter.step ⟨some (.phi inc), k⟩ = ⟨some (.phi inc), k + 1⟩ := by
        simp [DefIter.step, hlast]
      have hrec := ih (k + 1) (by omega) (by omega)
      rw [hstep, hrec, hdrop]
      rfl

/-- Stepping i times from the start of a phi leaves the iterator at argument
position i while i is in range. -/
theorem stepN_phi (inc : List (Option Nat × Nat)) :
    ∀ i k, k + i < inc.length →
      DefIter.stepN i ⟨some (.phi inc), k⟩ = ⟨some (.phi inc), k + i⟩ := by
  intro i
  induction i with
  | zero => intro k h; rfl
  | succ n ih =>
    intro k h
    have hlt : ¬ (k + 1 ≥ inc.length) := by omega
    have hstep : DefIter.step ⟨some (.phi inc), k⟩ = ⟨some (.phi inc), k + 1⟩ := by
      simp [DefIter.step, hlt]
    show DefIter.stepN n (DefIter.step ⟨some (.phi inc), k⟩) = _
    rw [hstep, ih (k + 1) (by omega)]
    congr 1
    omega

/-- Claim C2 (amended): iterating from defs_begin to defs_end yields, for a
MemoryUse or MemoryDef, exactly one element equal to the defining access; for
a MemoryPhi with at least one incoming value, exactly the incoming accesses
in index order, with getPhiArgBlock returning the matching incoming block at
each position. -/
theorem c2_defs_iteration (A : MAccess) :
    (∀ d, A = .useOrDef d → runIter 2 (defsBegin A) = some [d]) ∧
    (∀ inc, A = .phi inc → inc ≠ [] →
      runIter (inc.length + 1) (defsBegin A) = some (inc.map Prod.fst) ∧
      ∀ i (h : i < inc.length),
        (DefIter.stepN i (defsBegin A)).deref = some (inc.get ⟨i, h⟩).fst ∧
        (DefIter.stepN i (defsBegin A)).getPhiArgBlock = some (inc.get ⟨i, h⟩).snd) := by
  constructor
  · intro d hA
    subst hA
    simp [runIter, defsBegin, DefIter.atEnd, DefIter.deref, DefIter.step]
  · intro inc hA hne
    subst hA
    have hpos : 0 < inc.length := List.length_pos.mpr hne
    constructor
    · have := runIter_phi inc (inc.length + 1) 0 hpos (by omega)
      simpa [defsBegin] using this
    · intro i h
      have hstep : DefIter.stepN i (defsBegin (.phi inc)) = ⟨some (.phi inc), i⟩ := by
        have := stepN_phi inc i 0 (by omega)
        simpa [defsBegin] using this
      rw [hstep]
      constructor
      · simp [DefIter.deref, List.getElem?_eq_getElem h, List.get_eq_getElem]
      · simp [DefIter.getPhiArgBlock, List.getElem?_eq_getElem h, List.get_eq_getElem]

/-- Claim C2 as stated fails at a MemoryPhi with zero incoming values: the
begin iterator is not the end iterator, yet dereferencing it trips the
getOperand range assertion, so the iteration does not yield zero elements. -/
theorem c2_empty_phi_counterexample :
    (MAccess.phi []).numIncoming = 0 ∧
    (defsBegin (MAccess.phi [])).atEnd = false ∧
    (defsBegin (MAccess.phi [])).deref = none ∧
    runIter 5 (defsBegin (MAccess.phi [])) = none := by decide

/-- Concrete instantiation of c2_defs_iteration. -/
theorem c2_defs_iteration_witness :
    runIter 2 (defsBegin (MAccess.useOrDef (some 4))) = some [some 4] ∧
    runIter 3 (defsBegin (MAccess.phi [(some 1, 10), (some 2, 11)])) =
      some [some 1, some 2] ∧
    (DefIter.stepN 1 (defsBegin (MAccess.phi [(some 1, 10), (some 2, 11)]))).getPhiArgBlock =
      some 11 := by
  refine ⟨(c2_defs_iteration (MAccess.useOrDef (some 4))).1 (some 4) rfl, ?_, ?_⟩
  · exact ((c2_defs_iteration (MAccess.phi [(some 1, 10), (some 2, 11)])).2
      [(some 1, 10), (some 2, 11)] rfl (by decide)).1
  · exact (((c2_defs_iteration (MAccess.phi [(some 1, 10), (some 2, 11)])).2
      [(some 1, 10), (some 2, 11)] rfl (by decide)).2 1 (by decide)).2

structure MemoryLoc where
  Ptr : Option Nat
  Size : Nat
deriving DecidableEq

def MemoryLoc.getWithNewPtr (L : MemoryLoc) (p : Nat) : MemoryLoc :=
  { L with Ptr := some p }

structure UpIter where
  CurrentPair : Option Nat × MemoryLoc
  DefIterator : DefIter
  Location : MemoryLoc
  origBlock : Nat
  WalkingPhi : Bool
deriving DecidableEq

def fillInCurrentPair (translate : Nat → Nat → Nat → Option Nat) (it : UpIter) : Option UpIter :=
  match it.DefIterator.deref with
  | none => none
  | some first =>
    if it.WalkingPhi && it.Location.Ptr.isSome then
      match it.Location.Ptr, it.DefIterator.getPhiArgBlock with
      | some p, some argBlock =>
        match translate p it.origBlock argBlock with
        | some a =>
          if a ≠ p then some { it with CurrentPair := (first, it.Location.getWithNewPtr a) }
          else some { it with CurrentPair := (first, it.Location) }
        | none => some { it with CurrentPair := (first, it.Location) }
      | _, _ => none
    else
      some { it with CurrentPair := (first, it.Location) }

def upwardDefsBegin (translate : Nat → Nat → Nat → Option Nat) (A : MAccess)
    (origBlock : Nat) (L : MemoryLoc) : Option UpIter :=
  fillInCurrentPair translate
    { CurrentPair := (none, L)
      DefIterator := defsBegin A
      Location := L
      origBlock := origBlock
      WalkingPhi := match A with | .phi _ => true | _ => false }

def UpIter.stepUp (translate : Nat → Nat → Nat → Option Nat) (it : UpIter) : Option UpIter :=
  let it2 : UpIter := { it with DefIterator := it.DefIterator.step }
  if it2.DefIterator.atEnd then some it2 else fillInCurrentPair translate it2

def runUpward (translate : Nat → Nat → Nat → Option Nat) :
    Nat → UpIter → Option (List (Option Nat × MemoryLoc))
  | 0, _ => none
  | f + 1, it =>
    if it.DefIterator.atEnd then some []
    else match UpIter.stepUp translate it with
      | none => none
      | some it2 => (runUpward translate f it2).map (fun rest => it.CurrentPair :: rest)

def edgeLoc (translate : Nat → Nat → Nat → Option Nat) (origBlock argBlock : Nat)
    (L : MemoryLoc) : MemoryLoc :=
  match L.Ptr with
  | none => L
  | some p =>
    match translate p origBlock argBlock with
    | some a => if a ≠ p then L.getWithNewPtr a else L
    | none => L

theorem runUpward_succ (translate : Nat → Nat → Nat → Option Nat) (f : Nat) (it : UpIter) :
    runUpward translate (f + 1) it =
      if it.DefIterator.atEnd then some []
      else match UpIter.stepUp translate it with
        | none => none
        | some it2 => (runUpward translate f it2).map (fun rest => it.CurrentPair :: rest) := rfl

theorem fill_phi (translate : Nat → Nat → Nat → Option Nat)
    (inc : List (Option Nat × Nat)) (origBlock : Nat) (L : MemoryLoc)
    (c : Option Nat × MemoryLoc) (k : Nat) (hk : k < inc.length) :
    fillInCurrentPair translate
      { CurrentPair := c, DefIterator := ⟨some (.phi inc), k⟩, Location := L,
        origBlock := origBlock, WalkingPhi := true } =
      some { CurrentPair := (inc[k].fst, edgeLoc translate origBlock inc[k].snd L)
             DefIterator := ⟨some (.phi inc), k⟩, Location := L,
             origBlock := origBlock, WalkingPhi := true } := by
  have hderef : DefIter.deref ⟨some (.phi inc), k⟩ = some inc[k].fst := by
    simp [DefIter.deref, List.getElem?_eq_getElem hk]
  have hblk : DefIter.getPhiArgBlock ⟨some (.phi inc), k⟩ = some inc[k].snd := by
    simp [DefIter.getPhiArgBlock, List.getElem?_eq_getElem hk]
  cases hp : L.Ptr with
  | none => simp [fillInCurrentPair, hderef, hblk, edgeLoc, hp]
  | some p =>
    cases ht : translate p origBlock inc[k].snd with
    | none => simp [fillInCurrentPair, hderef, hblk, edgeLoc, hp, ht]
    | some a =>
      by_cases hap : a = p
      · simp [fillInCurrentPair, hderef, hblk, edgeLoc, hp, ht, hap]
      · simp [fillInCurrentPair, hderef, hblk, edgeLoc, hp, ht, hap]


theorem runUpward_phi (translate : Nat → Nat → Nat → Option Nat)
    (inc : List (Option Nat × Nat)) (origBlock : Nat) (L : MemoryLoc) :
    ∀ fuel k, (hk : k < inc.length) → inc.length - k < fuel →
      runUpward translate fuel
        { CurrentPair := (inc[k].fst, edgeLoc translate origBlock inc[k].snd L)
          DefIterator := ⟨some (.phi inc), k⟩
          Location := L, origBlock := origBlock, WalkingPhi := true } =
      some ((inc.drop k).map (fun e => (e.fst, edgeLoc translate origBlock e.snd L))) := by
  intro fuel
  induction fuel with
  | zero => intro k hk hf; omega
  | succ f ih =>
    intro k hk hf
    have hdrop : inc.drop k = inc[k] :: inc.drop (k + 1) := List.drop_eq_getElem_cons hk
    rw [runUpward_succ]
    rw [show DefIter.atEnd ⟨some (.phi inc), k⟩ = false from rfl]
    simp only [Bool.false_eq_true, if_false]
    by_cases hlast : k + 1 ≥ inc.length
    · have hstep : DefIter.step ⟨some (.phi inc), k⟩ = ⟨none, 0⟩ := by
        simp [DefIter.step, hlast]
      have hdropnil : inc.drop (k + 1) = [] := List.drop_eq_nil_of_le hlast
      have hfuel : ∃ g, f = g + 1 := ⟨f - 1, by omega⟩
      obtain ⟨g, rfl⟩ := hfuel
      simp only [UpIter.stepUp, hstep]
      rw [hdrop, hdropnil]
      rfl
    · have hstep : DefIter.step ⟨some (.phi inc), k⟩ = ⟨some (.phi inc), k + 1⟩ := by
        simp [DefIter.step, hlast]
      simp only [UpIter.stepUp, hstep]
      rw [show DefIter.atEnd ⟨some (.phi inc), k + 1⟩ = false from rfl]
      simp only [Bool.false_eq_true, if_false]
      rw [fill_phi translate inc origBlock L _ (k + 1) (by omega)]
      show Option.map (fun rest => (inc[k].1, edgeLoc translate origBlock inc[k].2 L) :: rest)
          (runUpward translate f
            { CurrentPair := (inc[k + 1].1, edgeLoc translate origBlock inc[k + 1].2 L)
              DefIterator := ⟨some (.phi inc), k + 1⟩, Location := L
              origBlock := origBlock, WalkingPhi := true }) =
        some (List.map (fun e => (e.1, edgeLoc translate origBlock e.2 L)) (List.drop k inc))
      rw [ih (k + 1) (by omega) (by omega)]
      rw [hdrop]
      rfl

theorem c3_upward_location (translate : Nat → Nat → Nat → Option Nat)
    (origBlock : Nat) (L : MemoryLoc) :
    (∀ d : Option Nat,
      (upwardDefsBegin translate (.useOrDef d) origBlock L).bind
        (runUpward translate 2) = some [(d, L)]) ∧
    (∀ inc : List (Option Nat × Nat), inc ≠ [] →
      ∃ ps : List (Option Nat × MemoryLoc),
        (upwardDefsBegin translate (.phi inc) origBlock L).bind
          (runUpward translate (inc.length + 1)) = some ps ∧
        ps.length = inc.length ∧
        (∀ (i : Nat) (v : Option Nat) (b p a : Nat), inc[i]? = some (v, b) → L.Ptr = some p →
          translate p origBlock b = some a → a ≠ p →
          ps[i]? = some (v, L.getWithNewPtr a)) ∧
        (∀ (i : Nat) (v : Option Nat) (b p : Nat), inc[i]? = some (v, b) → L.Ptr = some p →
          translate p origBlock b = none → ps[i]? = some (v, L)) ∧
        (∀ (i : Nat) (v : Option Nat) (b p : Nat), inc[i]? = some (v, b) → L.Ptr = some p →
          translate p origBlock b = some p → ps[i]? = some (v, L)) ∧
        (∀ (i : Nat) (v : Option Nat) (b : Nat), inc[i]? = some (v, b) → L.Ptr = none → ps[i]? = some (v, L))) := by
  constructor
  · intro d
    rfl
  · intro inc hne
    have hpos : 0 < inc.length := List.length_pos.mpr hne
    refine ⟨inc.map (fun e => (e.fst, edgeLoc translate origBlock e.snd L)),
      ?_, by simp, ?_, ?_, ?_, ?_⟩
    · have hbegin : upwardDefsBegin translate (.phi inc) origBlock L =
          some { CurrentPair := (inc[0].fst, edgeLoc translate origBlock inc[0].snd L)
                 DefIterator := ⟨some (.phi inc), 0⟩, Location := L
                 origBlock := origBlock, WalkingPhi := true } := by
        unfold upwardDefsBegin defsBegin
        exact fill_phi translate inc origBlock L (none, L) 0 hpos
      rw [hbegin]
      show runUpward translate (inc.length + 1)
        { CurrentPair := (inc[0].fst, edgeLoc translate origBlock inc[0].snd L)
          DefIterator := ⟨some (.phi inc), 0⟩, Location := L
          origBlock := origBlock, WalkingPhi := true } = _
      have hrun := runUpward_phi translate inc origBlock L (inc.length + 1) 0 hpos (by omega)
      simpa using hrun
    · intro i v b p a hib hp ht hap
      simp [List.getElem?_map, hib, edgeLoc, hp, ht, hap]
    · intro i v b p hib hp ht
      simp [List.getElem?_map, hib, edgeLoc, hp, ht]
    · intro i v b p hib hp ht
      simp [List.getElem?_map, hib, edgeLoc, hp, ht]
    · intro i v b hib hp
      simp [List.getElem?_map, hib, edgeLoc, hp]

/-- Concrete instantiation of c3_upward_location: one edge where translation
succeeds with a changed address, one where it returns the same address, one
where it fails, and the non-phi case. -/
theorem c3_upward_location_witness :
    (upwardDefsBegin (fun _ _ _ => none) (MAccess.useOrDef (some 4)) 0
        (MemoryLoc.mk (some 5) 4)).bind
      (runUpward (fun _ _ _ => none) 2) = some [(some 4, MemoryLoc.mk (some 5) 4)] ∧
    (∃ ps : List (Option Nat × MemoryLoc),
      (upwardDefsBegin
          (fun p _ b => if b = 11 then some (p + 1) else if b = 12 then some p else none)
          (MAccess.phi [(some 1, 11), (some 2, 12), (some 3, 13)]) 0
          (MemoryLoc.mk (some 5) 4)).bind
        (runUpward
          (fun p _ b => if b = 11 then some (p + 1) else if b = 12 then some p else none)
          4) = some ps ∧
      ps.length = 3 ∧
      ps[0]? = some (some 1, MemoryLoc.mk (some 6) 4) ∧
      ps[1]? = some (some 2, MemoryLoc.mk (some 5) 4) ∧
      ps[2]? = some (some 3, MemoryLoc.mk (some 5) 4)) := by
  refine ⟨(c3_upward_location (fun _ _ _ => none) 0 (MemoryLoc.mk (some 5) 4)).1 (some 4), ?_⟩
  obtain ⟨ps, hps, hlen, h1, h2, h3, _h4⟩ :=
    (c3_upward_location
      (fun p _ b => if b = 11 then some (p + 1) else if b = 12 then some p else none)
      0 (MemoryLoc.mk (some 5) 4)).2 [(some 1, 11), (some 2, 12), (some 3, 13)] (by decide)
  refine ⟨ps, hps, hlen, ?_, ?_, ?_⟩
  · exact h1 0 (some 1) 11 5 6 (by decide) rfl (by decide) (by decide)
  · exact h3 1 (some 2) 12 5 (by decide) rfl (by decide)
  · exact h2 2 (some 3) 13 5 (by decide) rfl (by decide)


/-- Model of MemoryDef: the const ID field fixed at construction plus the
mutable defining-access operand. -/
structure MemoryDef where
  definingAccess : Option Nat
  ID : Nat
deriving DecidableEq

/-- getID returns the const ID field. -/
def MemoryDef.getID (D : MemoryDef) : Nat := D.ID

/-- setDefiningAccess stores a new operand; the const ID field cannot be
reassigned. -/
def MemoryDef.setDefiningAccess (D : MemoryDef) (DMA : Option Nat) : MemoryDef :=
  { D with definingAccess := DMA }

/-- Apply a sequence of setDefiningAccess mutations, the only mutation a
MemoryDef supports. -/
def applyDefOps (D : MemoryDef) : List (Option Nat) → MemoryDef
  | [] => D
  | op :: rest => applyDefOps (D.setDefiningAccess op) rest

/-- Modelled from the spec: the NextID counter of MemorySSA; the assignment
code lives in MemorySSA.cpp, which is not under src.  The builder hands each
MemoryDef and MemoryPhi a fresh monotonically increasing id; the counter
starts at 1, the reserved LiveOnEntry id, so every id is positive and the
reserved INVALID_MEMORYACCESS_ID = 0 is never issued. -/
structure IdCounter where
  NextID : Nat
deriving DecidableEq

/-- Modelled from the spec: the id counter at the start of the build. -/
def initialCounter : IdCounter := ⟨1⟩

/-- Modelled from the spec: take the next id and advance the counter. -/
def freshId (s : IdCounter) : Nat × IdCounter := (s.NextID, ⟨s.NextID + 1⟩)

/-- The ids issued by n successive freshId calls. -/
def issuedIds : IdCounter → Nat → List Nat
  | _, 0 => []
  | s, n + 1 => (freshId s).fst :: issuedIds (freshId s).snd n

/-- The issued ids are the consecutive naturals from the counter. -/
theorem issuedIds_eq_range (n : Nat) :
    ∀ k, issuedIds ⟨k⟩ n = List.range' k n := by
  induction n with
  | zero => intro k; rfl
  | succ m ih =>
    intro k
    show k :: issuedIds ⟨k + 1⟩ m = List.range' k (m + 1)
    rw [ih (k + 1), List.range'_succ]

/-- Claim C4: getID is fixed at construction — no sequence of defining-access
mutations changes a MemoryDef id, and addIncoming keeps a MemoryPhi id — the
builder counter issues pairwise distinct ids, and no issued id equals the
reserved INVALID_MEMORYACCESS_ID value 0. -/
theorem c4_id_unique_stable (D : MemoryDef) (ops : List (Option Nat))
    (P : MemoryPhi) (V BB n : Nat) (hlen : P.blocks.length = P.values.length) :
    (applyDefOps D ops).getID = D.getID ∧
    (∀ Q, P.addIncoming V BB = some Q → Q.getID = P.getID) ∧
    (issuedIds initialCounter n).Nodup ∧
    (∀ i ∈ issuedIds initialCounter n, i ≠ INVALID_MEMORYACCESS_ID) := by
  refine ⟨?_, ?_, ?_, ?_⟩
  · induction ops generalizing D with
    | nil => rfl
    | cons op rest ih => exact ih (D.setDefiningAccess op)
  · intro Q hQ
    rw [addIncoming_eq P V BB hlen] at hQ
    injection hQ with h
    rw [← h]
    rfl
  · rw [show initialCounter = ⟨1⟩ from rfl, issuedIds_eq_range n 1]
    exact List.nodup_range' _ _
  · rw [show initialCounter = ⟨1⟩ from rfl, issuedIds_eq_range n 1]
    intro i hi
    obtain ⟨j, hj, rfl⟩ := List.mem_range'.mp hi
    simp [INVALID_MEMORYACCESS_ID]

/-- Concrete instantiation of c4_id_unique_stable. -/
theorem c4_id_unique_stable_witness :
    (applyDefOps (MemoryDef.mk none 5) [some 1, none]).getID = 5 ∧
    (issuedIds initialCounter 3).Nodup ∧
    (2 : Nat) ≠ INVALID_MEMORYACCESS_ID := by
  obtain ⟨h1, h2, h3, h4⟩ := c4_id_unique_stable (MemoryDef.mk none 5) [some 1, none]
    (MemoryPhi.mk [some 1] [some 2] 9 1) 3 4 3 (by decide)
  exact ⟨h1, h3, h4 2 (by decide)⟩

/-- Modelled from the spec: the upward walk of the caching walker, whose code
lives in MemorySSA.cpp, not under src.  A chain records what a query meets
following defining edges upward: the LiveOnEntry sentinel, a Phi, a Def
carrying the verdict of the may-alias oracle against the probed location, or
a Use. -/
inductive UpChain where
  | live
  | phiNode (id : Nat)
  | defNode (id : Nat) (mayAlias : Bool) (rest : UpChain)
  | useNode (rest : UpChain)
deriving DecidableEq

/-- Modelled from the spec: getClobberingMemoryAccess walks the chain upward,
skipping Uses and non-aliasing Defs, returning a may-aliasing Def, a Phi
as-is, or LiveOnEntry. -/
def getClobberingMemoryAccess : UpChain → UpChain
  | .live => .live
  | .phiNode i => .phiNode i
  | .defNode i ma rest => if ma then .defNode i ma rest else getClobberingMemoryAccess rest
  | .useNode rest => getClobberingMemoryAccess rest

/-- Whether an access is a MemoryUse. -/
def UpChain.isUse : UpChain → Bool
  | .useNode _ => true
  | _ => false

/-- Claim C5: a walker query starting at a MemoryUse never returns a
MemoryUse — the result is a MemoryDef, a MemoryPhi, or LiveOnEntry — and the
same holds for a query starting anywhere. -/
theorem c5_clobber_never_use (c : UpChain) :
    (getClobberingMemoryAccess (.useNode c)).isUse = false ∧
    (getClobberingMemoryAccess c).isUse = false := by
  have main : ∀ x : UpChain, (getClobberingMemoryAccess x).isUse = false := by
    intro x
    induction x with
    | live => rfl
    | phiNode i => rfl
    | defNode i ma rest ih =>
      by_cases hma : ma
      · simp [getClobberingMemoryAccess, hma, UpChain.isUse]
      · simp [getClobberingMemoryAccess, hma, ih]
    | useNode rest ih =>
      simpa [getClobberingMemoryAccess] using ih
  exact ⟨main (.useNode c), main c⟩

/-- Rewiring defining edges: after dropping the entry of X and redirecting
every edge that pointed at X to D, a lookup of any other key that mapped to X
yields D. -/
theorem findMap_rewire (X D A : Nat) (hAX : A ≠ X) :
    ∀ l : List (Nat × Nat), findMap l A = some X →
      findMap ((l.filter (fun e => e.fst != X)).map
        (fun e => if e.snd = X then (e.fst, D) else e)) A = some D := by
  intro l
  induction l with
  | nil => intro h; simp [findMap] at h
  | cons e rest ih =>
    intro h
    obtain ⟨k, v⟩ := e
    by_cases hkA : k = A
    · subst hkA
      have hv : v = X := by
        rw [findMap, if_pos rfl] at h
        simpa using h
      subst hv
      simp [List.filter_cons, List.map_cons, findMap, hAX]
    · rw [findMap] at h
      simp only [if_neg hkA] at h
      by_cases hkX : k = X
      · simp only [List.filter_cons]
        rw [if_neg (by simp [hkX])]
        exact ih h
      · simp only [List.filter_cons]
        rw [if_pos (by simp [hkX])]
        simp only [List.map_cons]
        rw [findMap, if_neg (by by_cases hv : v = X <;> simp [hv, hkA])]
        exact ih h

/-- Modelled from the spec: the MemorySSA state removeMemoryAccess operates
on (the implementation lives in MemorySSA.cpp, not under src): the defining
edges, the per-block access lists, the instruction lookup, and the list of
accesses handed to the walker invalidation hook. -/
structure SSAState where
  defEdges : List (Nat × Nat)
  blockLists : List (Nat × List Nat)
  instMap : List (Nat × Nat)
  invalidated : List Nat
deriving DecidableEq

/-- Modelled from the spec: removeMemoryAccess X rewires every access whose
defining edge points at X to the defining access D of X itself, drops X from
the per-block access lists and from the instruction lookup, and invokes the
walker invalidation hook on X. -/
def removeMemoryAccess (s : SSAState) (X : Nat) : SSAState :=
  match findMap s.defEdges X with
  | none => s
  | some D =>
    { defEdges := (s.defEdges.filter (fun e => e.fst != X)).map
        (fun e => if e.snd = X then (e.fst, D) else e)
      blockLists := s.blockLists.map (fun bl => (bl.fst, bl.snd.filter (fun a => a != X)))
      instMap := s.instMap.filter (fun e => e.snd != X)
      invalidated := X :: s.invalidated }

/-- Claim C6: after removeMemoryAccess on X with defining access D, every
access whose defining edge pointed at X now points at D, X appears in no
block access list and in no instruction-lookup entry, and the walker
invalidation hook has been invoked for X. -/
theorem c6_remove_rewires_and_erases (s : SSAState) (X D : Nat)
    (hD : findMap s.defEdges X = some D) :
    (∀ A, A ≠ X → findMap s.defEdges A = some X →
      findMap (removeMemoryAccess s X).defEdges A = some D) ∧
    (∀ b l, (b, l) ∈ (removeMemoryAccess s X).blockLists → X ∉ l) ∧
    (∀ i a, (i, a) ∈ (removeMemoryAccess s X).instMap → a ≠ X) ∧
    X ∈ (removeMemoryAccess s X).invalidated := by
  simp only [removeMemoryAccess, hD]
  refine ⟨?_, ?_, ?_, ?_⟩
  · intro A hAX hA
    exact findMap_rewire X D A hAX s.defEdges hA
  · intro b l hbl hXl
    obtain ⟨bl, hmem, heq⟩ := List.mem_map.mp hbl
    have hl : l = bl.snd.filter (fun a => a != X) := (congrArg Prod.snd heq).symm
    rw [hl] at hXl
    have := List.of_mem_filter hXl
    simp at this
  · intro i a hia
    have := List.of_mem_filter hia
    simpa using this
  · exact List.mem_cons_self X _

/-- Concrete instantiation of c6_remove_rewires_and_erases: remove access 1,
whose defining access is 9 and whose user is access 2. -/
theorem c6_remove_rewires_and_erases_witness :
    findMap (removeMemoryAccess
      (SSAState.mk [(1, 9), (2, 1), (3, 2)] [(0, [9, 1, 2, 3])] [(100, 1), (101, 2)] [])
      1).defEdges 2 = some 9 ∧
    (1 : Nat) ∈ (removeMemoryAccess
      (SSAState.mk [(1, 9), (2, 1), (3, 2)] [(0, [9, 1, 2, 3])] [(100, 1), (101, 2)] [])
      1).invalidated := by
  obtain ⟨h1, h2, h3, h4⟩ := c6_remove_rewires_and_erases
    (SSAState.mk [(1, 9), (2, 1), (3, 2)] [(0, [9, 1, 2, 3])] [(100, 1), (101, 2)] [])
    1 9 (by decide)
  exact ⟨h1 2 (by decide) (by decide), h4⟩

/-- The mod-ref verdicts of the alias oracle. -/
inductive ModRefInfo where
  | MRI_NoModRef
  | MRI_Ref
  | MRI_Mod
  | MRI_ModRef
deriving DecidableEq

/-- The two access variants the builder can create for an instruction. -/
inductive AccessKind where
  | use
  | defn
deriving DecidableEq

/-- Modelled from the spec and from the header comments on MemoryUse and
MemoryDef: createNewAccess of the builder (MemorySSA.cpp, not under src)
creates a MemoryUse exactly for instructions whose getModRefInfo verdict is
Ref, a MemoryDef for Mod or ModRef, and no access for NoModRef. -/
def classify : ModRefInfo → Option AccessKind
  | .MRI_NoModRef => none
  | .MRI_Ref => some .use
  | .MRI_Mod => some .defn
  | .MRI_ModRef => some .defn

/-- Modelled from the spec: the build scan walks the instructions in order
and records one access per instruction that classify does not skip. -/
def buildScan (insts : List (Nat × ModRefInfo)) : List (Nat × AccessKind) :=
  insts.filterMap (fun e => (classify e.snd).map (fun k => (e.fst, k)))

/-- The accesses the scan recorded for instruction i. -/
def accessesFor (insts : List (Nat × ModRefInfo)) (i : Nat) : List (Nat × AccessKind) :=
  (buildScan insts).filter (fun e => e.fst == i)

/-- An instruction absent from the input has no recorded access. -/
theorem accessesFor_not_mem (i : Nat) :
    ∀ insts : List (Nat × ModRefInfo), i ∉ insts.map Prod.fst → accessesFor insts i = [] := by
  intro insts
  induction insts with
  | nil => intro _; rfl
  | cons e rest ih =>
    intro hmem
    obtain ⟨k, mr⟩ := e
    simp only [List.map_cons, List.mem_cons] at hmem
    push_neg at hmem
    have hki : k ≠ i := fun h => hmem.1 h.symm
    have hrest := ih hmem.2
    cases mr
    · exact hrest
    · show List.filter (fun e => e.fst == i) ((k, AccessKind.use) :: buildScan rest) = []
      rw [List.filter_cons, if_neg (by simp [hki])]
      exact hrest
    · show List.filter (fun e => e.fst == i) ((k, AccessKind.defn) :: buildScan rest) = []
      rw [List.filter_cons, if_neg (by simp [hki])]
      exact hrest
    · show List.filter (fun e => e.fst == i) ((k, AccessKind.defn) :: buildScan rest) = []
      rw [List.filter_cons, if_neg (by simp [hki])]
      exact hrest

/-- A head entry for a different instruction does not change the recorded
accesses of i. -/
theorem accessesFor_cons_ne (i k : Nat) (kmr : ModRefInfo) (rest : List (Nat × ModRefInfo))
    (hki : k ≠ i) : accessesFor ((k, kmr) :: rest) i = accessesFor rest i := by
  cases kmr
  · rfl
  · show List.filter (fun e => e.fst == i) ((k, AccessKind.use) :: buildScan rest) = _
    rw [List.filter_cons, if_neg (by simp [hki])]
    rfl
  · show List.filter (fun e => e.fst == i) ((k, AccessKind.defn) :: buildScan rest) = _
    rw [List.filter_cons, if_neg (by simp [hki])]
    rfl
  · show List.filter (fun e => e.fst == i) ((k, AccessKind.defn) :: buildScan rest) = _
    rw [List.filter_cons, if_neg (by simp [hki])]
    rfl

/-- Claim C7: after the build scan, an instruction the oracle classifies Ref
has exactly one access, a MemoryUse; one classified Mod or ModRef has exactly
one access, a MemoryDef; one classified NoModRef has none. -/
theorem c7_classification (i : Nat) (mr : ModRefInfo) :
    ∀ insts : List (Nat × ModRefInfo), (insts.map Prod.fst).Nodup → (i, mr) ∈ insts →
      (mr = .MRI_Ref → accessesFor insts i = [(i, .use)]) ∧
      ((mr = .MRI_Mod ∨ mr = .MRI_ModRef) → accessesFor insts i = [(i, .defn)]) ∧
      (mr = .MRI_NoModRef → accessesFor insts i = []) := by
  intro insts
  induction insts with
  | nil => intro _ hmem; cases hmem
  | cons e rest ih =>
    intro hnd hmem
    obtain ⟨k, kmr⟩ := e
    simp only [List.map_cons, List.nodup_cons] at hnd
    rcases List.mem_cons.mp hmem with heq | hmemr
    · injection heq with h1 h2
      subst h1
      subst h2
      have hrest : accessesFor rest i = [] := accessesFor_not_mem i rest hnd.1
      refine ⟨?_, ?_, ?_⟩ <;> intro hmr
      · subst hmr
        show List.filter (fun e => e.fst == i) ((i, AccessKind.use) :: buildScan rest) = _
        rw [List.filter_cons, if_pos (by simp)]
        rw [show List.filter (fun e : Nat × AccessKind => e.fst == i) (buildScan rest) = []
          from hrest]
      · rcases hmr with hmr | hmr <;> subst hmr <;>
          · show List.filter (fun e => e.fst == i) ((i, AccessKind.defn) :: buildScan rest) = _
            rw [List.filter_cons, if_pos (by simp)]
            rw [show List.filter (fun e : Nat × AccessKind => e.fst == i) (buildScan rest) = []
              from hrest]
      · subst hmr
        exact hrest
    · have hki : k ≠ i := by
        intro hk
        subst hk
        exact hnd.1 (List.mem_map.mpr ⟨(k, mr), hmemr, rfl⟩)
      rw [accessesFor_cons_ne i k kmr rest hki]
      exact ih hnd.2 hmemr

/-- Concrete instantiation of c7_classification. -/
theorem c7_classification_witness :
    accessesFor [(1, .MRI_Ref), (2, .MRI_Mod), (3, .MRI_NoModRef), (4, .MRI_ModRef)] 1 =
      [(1, .use)] ∧
    accessesFor [(1, .MRI_Ref), (2, .MRI_Mod), (3, .MRI_NoModRef), (4, .MRI_ModRef)] 4 =
      [(4, .defn)] ∧
    accessesFor [(1, .MRI_Ref), (2, .MRI_Mod), (3, .MRI_NoModRef), (4, .MRI_ModRef)] 3 =
      [] := by
  refine ⟨?_, ?_, ?_⟩
  · exact (c7_classification 1 .MRI_Ref
      [(1, .MRI_Ref), (2, .MRI_Mod), (3, .MRI_NoModRef), (4, .MRI_ModRef)]
      (by decide) (by decide)).1 rfl
  · exact (c7_classification 4 .MRI_ModRef
      [(1, .MRI_Ref), (2, .MRI_Mod), (3, .MRI_NoModRef), (4, .MRI_ModRef)]
      (by decide) (by decide)).2.1 (Or.inr rfl)
  · exact (c7_classification 3 .MRI_NoModRef
      [(1, .MRI_Ref), (2, .MRI_Mod), (3, .MRI_NoModRef), (4, .MRI_ModRef)]
      (by decide) (by decide)).2.2 rfl

end MemorySSAModel
